import Mathlib

/-!
Shallow embedding of `timelapse_from_folders.py`.

Conventions used throughout:
* Python integers are `ℕ`/`ℤ`; Python float arithmetic on image geometry is
  modelled as exact rational arithmetic represented by explicit
  numerator/denominator pairs, and Python `round` (round-half-to-even) is
  the function `roundHE` below.
* Python `//` on nonnegative operands is `Nat` division; on possibly negative
  integers it is `Int` division (`/` on `ℤ` rounds toward negative infinity
  for positive divisors, exactly like Python).
* Fallible operations (image decode, cv2 border construction, filesystem
  reads) are `Option`-valued; `none` is a raised exception / failure.
* Images are a dimensions pair plus a pixel function; the opaque external
  capabilities (cv2 resize interpolation, text overlay drawing) are
  parameters, constrained in the theorems only by the dimension contracts
  the real library satisfies.
-/

namespace Timelapse

/-- Round-half-to-even of the fraction `num / den` (Python `round` on the
exact rational value). For `den = 0` the value is irrelevant (all uses are
guarded by positive denominators). -/
def roundHE (num den : ℕ) : ℕ :=
  if 2 * (num % den) < den then num / den
  else if den < 2 * (num % den) then num / den + 1
  else if (num / den) % 2 = 0 then num / den
  else num / den + 1

/-- The `if W % 2: W += 1` step of `pick_writer_size`: round up to even. -/
def evenUp (n : ℕ) : ℕ := if n % 2 = 1 then n + 1 else n

/-- Embedding of `pick_writer_size(first_img, target_width)`.
`h`, `w` are `first_img.shape[:2]`. `H = int(round(h * (target_width / w)))`
is modelled as round-half-even of the exact rational `h * target_width / w`. -/
def pickWriterSize (h w : ℕ) (targetWidth : ℤ) : ℕ × ℕ :=
  let WH : ℕ × ℕ :=
    if targetWidth ≤ 0 then (w, h)
    else (targetWidth.toNat, roundHE (h * targetWidth.toNat) w)
  (evenUp WH.1, evenUp WH.2)

/-- A decoded image: dimensions plus a BGR pixel function. -/
structure Img where
  h : ℕ
  w : ℕ
  px : ℕ → ℕ → ℕ × ℕ × ℕ

/-- Embedding of `cv2.copyMakeBorder(img, top, bottom, left, right,
BORDER_CONSTANT, value=(0,0,0))`. cv2 raises on negative border widths,
modelled as `none`. -/
def copyMakeBorder (img : Img) (top bottom left right : ℤ) : Option Img :=
  if 0 ≤ top ∧ 0 ≤ bottom ∧ 0 ≤ left ∧ 0 ≤ right then
    some { h := img.h + top.toNat + bottom.toNat
         , w := img.w + left.toNat + right.toNat
         , px := fun y x =>
             if top.toNat ≤ y ∧ y < top.toNat + img.h ∧
                left.toNat ≤ x ∧ x < left.toNat + img.w then
               img.px (y - top.toNat) (x - left.toNat)
             else (0, 0, 0) }
  else none

/-- The scale factor `min(target_w / w, target_h / h)` of `ensure_size`,
as an exact fraction (numerator, denominator): `tw / w ≤ th / h` iff
`tw * h ≤ th * w` for positive `w`, `h`. -/
def scaleFrac (w h tw th : ℕ) : ℕ × ℕ :=
  if tw * h ≤ th * w then (tw, w) else (th, h)

/-- Embedding of `ensure_size(img, target_w, target_h)`.
`new_w = max(1, int(round(w * scale)))` with `scale = min(tw/w, th/h)`;
the resized image is padded with black borders computed by floor division,
exactly as in the source. `resize` stands for `cv2.resize`. -/
def ensureSize (resize : Img → ℕ → ℕ → Img) (img : Img) (targetW targetH : ℕ) :
    Option Img :=
  if img.w = targetW ∧ img.h = targetH then some img
  else
    let nd := scaleFrac img.w img.h targetW targetH
    let newW := max 1 (roundHE (img.w * nd.1) nd.2)
    let newH := max 1 (roundHE (img.h * nd.1) nd.2)
    let resized := resize img newW newH
    let top : ℤ := ((targetH : ℤ) - newH) / 2
    let bottom : ℤ := (targetH : ℤ) - newH - top
    let left : ℤ := ((targetW : ℤ) - newW) / 2
    let right : ℤ := (targetW : ℤ) - newW - left
    copyMakeBorder resized top bottom left right

/-- Outcome of one folder job (`make_video_for_folder`), see §4.5 of the
design: skip states, per-job error states, and `done` with the frames that
were appended to the sink and the files whose decode failure was logged. -/
inductive JobOutcome (α : Type) where
  | skippedEmpty
  | skippedExists
  | abortedFirstDecode
  | abortedFrameError
  | errNoEncoder
  | done (frames : List Img) (failed : List α)
  deriving Inhabited

/-- The frame loop of `make_video_for_folder`: decode failure is caught,
logged (`failed` list) and skipped; a failure of `ensure_size` (outside the
`try`) propagates and aborts (`none`). Each surviving frame is normalized,
overlaid and written, in order. -/
def runFrames (decode : α → Option Img) (resize : Img → ℕ → ℕ → Img)
    (overlay : Img → Img) (W H : ℕ) : List α → Option (List Img × List α)
  | [] => some ([], [])
  | p :: rest =>
    match decode p with
    | none =>
      match runFrames decode resize overlay W H rest with
      | none => none
      | some (fs, ws) => some (fs, p :: ws)
    | some img =>
      match ensureSize resize img W H with
      | none => none
      | some frame =>
        match runFrames decode resize overlay W H rest with
        | none => none
        | some (fs, ws) => some (overlay frame :: fs, ws)

/-- Embedding of `make_video_for_folder` after frame selection: empty
selection skips; existing output without `--overwrite` skips; the FIRST
selected image is decoded outside any `try` (line 251), so its failure
propagates out of the job; then the writer is opened and the frame loop
runs over ALL selected images (the first one included, decoded again). -/
def runJob (decode : α → Option Img) (resize : Img → ℕ → ℕ → Img)
    (overlay : Img → Img) (width : ℤ) (outExists overwrite writerOpens : Bool)
    (images : List α) : JobOutcome α :=
  match images with
  | [] => .skippedEmpty
  | p0 :: rest =>
    if outExists && !overwrite then .skippedExists
    else
      match decode p0 with
      | none => .abortedFirstDecode
      | some first =>
        let WH := pickWriterSize first.h first.w width
        if !writerOpens then .errNoEncoder
        else
          match runFrames decode resize overlay WH.1 WH.2 (p0 :: rest) with
          | none => .abortedFrameError
          | some (fs, ws) => .done fs ws

/-- Discriminator for the `done` outcome (used to state that a job was or
was not aborted at a concrete input). -/
def JobOutcome.isDone : JobOutcome α → Bool
  | .done _ _ => true
  | _ => false

/-- Number of frames appended to the sink by a finished job. -/
def JobOutcome.frameCount : JobOutcome α → ℕ
  | .done fs _ => fs.length
  | _ => 0

/-- The files whose decode failure was logged by a finished job. -/
def JobOutcome.failedList : JobOutcome α → List α
  | .done _ ws => ws
  | _ => []

/-- A time of day in seconds since midnight; Python `time`/`datetime.time`
values compare lexicographically on (hour, minute, second), which is the
natural order on total seconds. -/
def timeOfDay (hh mm ss : ℕ) : ℕ := hh * 3600 + mm * 60 + ss

/-- Embedding of `in_time_window(dt, start, end)`; `t` is `dt.time()`. -/
def inTimeWindow (t : ℕ) (start stop : Option ℕ) : Bool :=
  match start, stop with
  | none, none => true
  | none, some e => decide (t ≤ e)
  | some s, none => decide (s ≤ t)
  | some s, some e =>
    if s ≤ e then decide (s ≤ t) && decide (t ≤ e)
    else decide (s ≤ t) || decide (t ≤ e)

/-- Lowercasing of `s.lower()`; ASCII case mapping (the inputs of interest
are ASCII letters, digits, punctuation and CJK characters, on which Python
and ASCII lowercasing agree). -/
def lowerChars (cs : List Char) : List Char := cs.map Char.toLower

/-- Embedding of `s.strip()`: drop whitespace from both ends. -/
def trimChars (cs : List Char) : List Char :=
  ((cs.dropWhile Char.isWhitespace).reverse.dropWhile Char.isWhitespace).reverse

/-- Worker for `replaceAll`, structurally recursive on a fuel argument so
that the kernel can evaluate it. Every step consumes at least one
character, so with `fuel = cs.length` the fuel never runs out (the `0`
case is only reached with the empty list, for which `[]` is the correct
value anyway). -/
def replaceAllF (pat repl : List Char) : ℕ → List Char → List Char
  | _, [] => []
  | 0, c :: cs => c :: cs
  | fuel + 1, c :: cs =>
    if pat ≠ [] ∧ pat.isPrefixOf (c :: cs) then
      repl ++ replaceAllF pat repl fuel ((c :: cs).drop pat.length)
    else
      c :: replaceAllF pat repl fuel cs

/-- Embedding of Python `s.replace(pat, repl)`: replace all non-overlapping
occurrences, scanning left to right. -/
def replaceAll (pat repl cs : List Char) : List Char :=
  replaceAllF pat repl cs.length cs

/-- The normalization prelude of `parse_weekdays`: lowercase, strip, remove
the weekday prefixes 星期/週/周, unify list separators to `,`, drop spaces. -/
def normalizeSpec (cs : List Char) : List Char :=
  let s1 := trimChars (lowerChars cs)
  let s2 := replaceAll ("星期".data) [] s1
  let s3 := replaceAll ("週".data) [] s2
  let s4 := replaceAll ("周".data) [] s3
  let s5 := replaceAll ("、".data) (",".data) s4
  let s6 := replaceAll ("，".data) (",".data) s5
  replaceAll (" ".data) [] s6

/-- Embedding of Python `s.split(",")` (keeps empty pieces). -/
def splitOnComma : List Char → List (List Char)
  | [] => [[]]
  | c :: cs =>
    if c = ',' then [] :: splitOnComma cs
    else
      match splitOnComma cs with
      | [] => [[c]]
      | t :: ts => (c :: t) :: ts

/-- Embedding of `tok.split("-", 1)` preceded by the `"-" in tok` test:
`none` when the token has no dash, otherwise the pieces before and after
the first dash. -/
def splitAtFirstDash : List Char → Option (List Char × List Char)
  | [] => none
  | c :: cs =>
    if c = '-' then some ([], cs)
    else
      match splitAtFirstDash cs with
      | none => none
      | some (a, b) => some (c :: a, b)

/-- The English weekday dictionary `en` of `parse_weekdays`. -/
def enIdx (t : List Char) : Option ℕ :=
  if t = "mon".data ∨ t = "monday".data then some 0
  else if t = "tue".data ∨ t = "tues".data ∨ t = "tuesday".data then some 1
  else if t = "wed".data ∨ t = "wednesday".data then some 2
  else if t = "thu".data ∨ t = "thur".data ∨ t = "thurs".data ∨ t = "thursday".data then some 3
  else if t = "fri".data ∨ t = "friday".data then some 4
  else if t = "sat".data ∨ t = "saturday".data then some 5
  else if t = "sun".data ∨ t = "sunday".data then some 6
  else none

/-- The Chinese weekday dictionary `zh` of `parse_weekdays`. -/
def zhIdx (t : List Char) : Option ℕ :=
  if t = "一".data then some 0
  else if t = "二".data then some 1
  else if t = "三".data then some 2
  else if t = "四".data then some 3
  else if t = "五".data then some 4
  else if t = "六".data then some 5
  else if t = "日".data ∨ t = "天".data then some 6
  else none

/-- Embedding of `tok.isdigit()` (nonempty, all digits). -/
def isDigits (cs : List Char) : Bool := !cs.isEmpty && cs.all Char.isDigit

/-- Numeric value of a digit token, `int(tok)`. -/
def natOfDigits (cs : List Char) : ℕ :=
  cs.foldl (fun n c => 10 * n + (c.toNat - '0'.toNat)) 0

/-- The wrap-around loop of `tok_to_idx_list`:
`while True: res.append(i); if i == bi: break; i = (i + 1) % 7`.
All indices fed to the loop lie in `0..6` (each is an output of the
dictionaries or the digit branch), so the loop stops within 7 iterations;
the fuel argument makes it total without changing its value there. -/
def wrapGo (b : ℕ) : ℕ → ℕ → List ℕ
  | 0, _ => []
  | fuel + 1, i => i :: (if i = b then [] else wrapGo b fuel ((i + 1) % 7))

/-- The range `ai .. bi` wrapping around the 7-day cycle. -/
def wrapRange (a b : ℕ) : List ℕ := wrapGo b 7 a

/-- Worker for `tokToIdxList`, structurally recursive on a fuel argument so
that the kernel can evaluate it. A range token recurses on the two pieces
around its first dash, each at least one character shorter than the token,
so with `fuel = tok.length` the fuel never runs out (the `0` case is only
reached with the empty token, for which `[]` is the correct value anyway). -/
def tokToIdxListF : ℕ → List Char → List ℕ
  | _, [] => []
  | 0, _ :: _ => []
  | fuel + 1, c :: cs =>
    match splitAtFirstDash (c :: cs) with
    | some ab =>
      match tokToIdxListF fuel ab.1, tokToIdxListF fuel ab.2 with
      | [], _ => []
      | _ :: _, [] => []
      | ai :: _, bi :: _ => wrapRange ai bi
    | none =>
      match enIdx (c :: cs) with
      | some i => [i]
      | none =>
        match zhIdx (c :: cs) with
        | some i => [i]
        | none =>
          if isDigits (c :: cs) then
            if 1 ≤ natOfDigits (c :: cs) ∧ natOfDigits (c :: cs) ≤ 7 then
              [(natOfDigits (c :: cs) - 1) % 7]
            else if natOfDigits (c :: cs) ≤ 6 then [natOfDigits (c :: cs)]
            else []
          else []

/-- Embedding of `tok_to_idx_list(tok)` (`if not tok: return []` is the
empty-token case of the worker). -/
def tokToIdxList (tok : List Char) : List ℕ :=
  tokToIdxListF tok.length tok

/-- Embedding of `parse_weekdays(s)`: `None` input or empty string yields
`None`; otherwise normalize, split on commas, collect token index lists
into a set, and return `None` exactly when the set comes out empty
(`return out or None`). -/
def parseWeekdays (s : Option String) : Option (Finset ℕ) :=
  match s with
  | none => none
  | some str =>
    if str.data = [] then none
    else
      let parts := splitOnComma (normalizeSpec str.data)
      let out := parts.foldl (fun acc part => acc ∪ (tokToIdxList part).toFinset) ∅
      if out = ∅ then none else some out

/-- Embedding of `in_weekdays(dt, wanted)`; `wd` is `dt.weekday()`.
Python `if not wanted` is true both for `None` and for an empty set. -/
def inWeekdays (wd : ℕ) (wanted : Option (Finset ℕ)) : Bool :=
  match wanted with
  | none => true
  | some s => if s = ∅ then true else decide (wd ∈ s)

/-- A candidate file as the selector sees it: the nanosecond mtime and name
used by the sort key, and the local time-of-day (seconds) and weekday that
`datetime.fromtimestamp(p.stat().st_mtime)` yields for the filter. -/
structure Cand where
  mtimeNs : ℕ
  name : String
  tod : ℕ
  wday : ℕ

/-- The sort key comparison of `list_images`:
`key = (x.stat().st_mtime_ns, x.name)`, compared lexicographically. -/
def candLE (a b : Cand) : Bool :=
  decide (a.mtimeNs < b.mtimeNs) ||
    (decide (a.mtimeNs = b.mtimeNs) && decide (a.name ≤ b.name))

/-- The corresponding propositional relation. -/
def candLe (a b : Cand) : Prop :=
  a.mtimeNs < b.mtimeNs ∨ (a.mtimeNs = b.mtimeNs ∧ a.name ≤ b.name)

/-- The `files.sort(key=...)` step of `list_images` (Python sort is a
stable merge sort). -/
def sortFiles (files : List Cand) : List Cand := files.mergeSort candLE

/-- The per-file predicate of `filter_by_window`. -/
def keptBy (ts te : Option ℕ) (wd : Option (Finset ℕ)) (p : Cand) : Bool :=
  inTimeWindow p.tod ts te && inWeekdays p.wday wd

/-- Embedding of `filter_by_window(files, tstart, tend, wdays)`: when no
filter is active (`tstart is None and tend is None and not wdays`) the list
is returned as is, otherwise the kept files are appended in input order. -/
def filterByWindow (ts te : Option ℕ) (wd : Option (Finset ℕ))
    (files : List Cand) : List Cand :=
  if ts = none ∧ te = none ∧ (wd = none ∨ wd = some ∅) then files
  else files.filter (keptBy ts te wd)

/-- A path as `pathlib` presents it to this program: a stem and a suffix
(`""` = no extension, otherwise like `".jpg"`). -/
structure MPath where
  stem : String
  ext : String
  deriving DecidableEq

/-- The filesystem as the classifier sees it: existing paths with the byte
content a read would return (`none` = the read raises), plus oracles for
whether the rename / copy / unlink system calls succeed. -/
structure FsState where
  files : List (MPath × Option (List ℕ))
  renameOk : Bool
  copyOk : Bool
  unlinkOk : Bool

/-- Look a path up in the filesystem. -/
def fsGet (s : FsState) (p : MPath) : Option (Option (List ℕ)) :=
  (s.files.find? (fun e => decide (e.1 = p))).map (·.2)

/-- Embedding of `new_path.exists()`. -/
def pathExists (s : FsState) (p : MPath) : Bool := (fsGet s p).isSome

/-- Embedding of `is_jpeg_file_by_header(path)`: read the first 3 bytes and
compare with `FF D8 FF`; any read failure (missing file, unreadable file)
is caught and yields `False`. -/
def isJpegFileByHeader (s : FsState) (p : MPath) : Bool :=
  match fsGet s p with
  | some (some bytes) => decide (bytes.take 3 = [0xFF, 0xD8, 0xFF])
  | some none => false
  | none => false

/-- Embedding of `path.with_suffix(".jpg")`. -/
def withSuffixJpg (p : MPath) : MPath := { p with ext := ".jpg" }

/-- Effect of a successful `path.rename(new_path)` (also of a successful
`copy2` followed by a successful `unlink`): the entry moves to the new
path. -/
def renameFile (s : FsState) (p np : MPath) : FsState :=
  { s with files := s.files.map (fun e => if e.1 = p then (np, e.2) else e) }

/-- Effect of a successful `shutil.copy2(path, new_path)` whose following
`unlink` fails: both paths now exist. -/
def copyFile (s : FsState) (p np : MPath) : FsState :=
  { s with files := s.files ++ (match fsGet s p with
      | some c => [(np, c)]
      | none => []) }

/-- Result of the classifier: the filesystem afterwards, the path returned,
and how many rename/copy attempts were made. -/
structure FixResult where
  st : FsState
  path : MPath
  attempts : ℕ

/-- Embedding of `maybe_fix_missing_extension(path)`: suffixed paths are
returned immediately; an extensionless JPEG (by header) is renamed to
`.jpg` unless the target exists; a failing rename falls back to
copy-then-unlink; if everything fails the original path is returned. -/
def maybeFixMissingExtension (s : FsState) (p : MPath) : FixResult :=
  if p.ext ≠ "" then ⟨s, p, 0⟩
  else if isJpegFileByHeader s p then
    let np := withSuffixJpg p
    if pathExists s np then ⟨s, p, 0⟩
    else if s.renameOk then ⟨renameFile s p np, np, 1⟩
    else if s.copyOk then
      if s.unlinkOk then ⟨renameFile s p np, np, 2⟩
      else ⟨copyFile s p np, p, 2⟩
    else ⟨s, p, 2⟩
  else ⟨s, p, 0⟩

/-- A concrete 3×3 test image. -/
def im33 : Img := ⟨3, 3, fun _ _ => (7, 7, 7)⟩

/-- A concrete resize capability satisfying the cv2 dimension contract. -/
def rz0 : Img → ℕ → ℕ → Img := fun i nw nh => ⟨nh, nw, i.px⟩

/-- A concrete decoder for which exactly file `0` fails to decode. -/
def dec0 : ℕ → Option Img := fun n => if n = 0 then none else some im33

/-- A concrete filesystem: the extensionless JPEG file `a` exists, the
target `a.jpg` does not, and both the rename and the copy system calls
fail. -/
def cexFs : FsState := ⟨[(⟨"a", ""⟩, some [0xFF, 0xD8, 0xFF])], false, false, true⟩

/-- A concrete filesystem where the rename succeeds. -/
def okFs : FsState := ⟨[(⟨"a", ""⟩, some [0xFF, 0xD8, 0xFF])], true, true, true⟩

/- ### Helper lemmas -/

/-- Folding unions of empty token lists over any accumulator is a no-op. -/
theorem foldl_union_of_empty {β : Type} [DecidableEq β] (f : List Char → List β) :
    ∀ (parts : List (List Char)) (acc : Finset β),
      (∀ part ∈ parts, f part = []) →
      parts.foldl (fun acc part => acc ∪ (f part).toFinset) acc = acc := by
  intro parts
  induction parts with
  | nil => intro acc _; rfl
  | cons p ps ih =>
    intro acc h
    simp only [List.foldl_cons]
    rw [h p (List.mem_cons_self _ _)]
    simpa using ih _ (fun q hq => h q (List.mem_cons_of_mem _ hq))

/-- Membership in the union fold of `parse_weekdays`. -/
theorem mem_foldl_union {β : Type} [DecidableEq β] (f : List Char → List β) :
    ∀ (parts : List (List Char)) (acc : Finset β) (x : β),
      (x ∈ parts.foldl (fun acc part => acc ∪ (f part).toFinset) acc ↔
        x ∈ acc ∨ ∃ part ∈ parts, x ∈ f part) := by
  intro parts
  induction parts with
  | nil => simp
  | cons p ps ih =>
    intro acc x
    simp only [List.foldl_cons]
    rw [ih]
    simp only [Finset.mem_union, List.mem_toFinset, List.mem_cons]
    constructor
    · rintro ((h | h) | ⟨part, hp, hm⟩)
      · exact Or.inl h
      · exact Or.inr ⟨p, Or.inl rfl, h⟩
      · exact Or.inr ⟨part, Or.inr hp, hm⟩
    · rintro (h | ⟨part, (rfl | hp), hm⟩)
      · exact Or.inl (Or.inl h)
      · exact Or.inl (Or.inr hm)
      · exact Or.inr ⟨part, hp, hm⟩

/-- The English dictionary only produces weekday indices `0..6`. -/
theorem enIdx_le (t : List Char) (i : ℕ) (h : enIdx t = some i) : i ≤ 6 := by
  unfold enIdx at h
  split_ifs at h <;> simp_all <;> omega

/-- The Chinese dictionary only produces weekday indices `0..6`. -/
theorem zhIdx_le (t : List Char) (i : ℕ) (h : zhIdx t = some i) : i ≤ 6 := by
  unfold zhIdx at h
  split_ifs at h <;> simp_all <;> omega

/-- The wrap-around loop stays inside `0..6` when started there. -/
theorem wrapGo_lt :
    ∀ (fuel i b x : ℕ), i < 7 → x ∈ wrapGo b fuel i → x < 7 := by
  intro fuel
  induction fuel with
  | zero => intro i b x _ hx; simp [wrapGo] at hx
  | succ f ih =>
    intro i b x hi hx
    rw [wrapGo] at hx
    rcases List.mem_cons.mp hx with rfl | hx2
    · exact hi
    · by_cases hib : i = b
      · simp [hib] at hx2
      · rw [if_neg hib] at hx2
        exact ih _ b x (Nat.mod_lt _ (by norm_num)) hx2

/-- Every index produced by the token grammar is a weekday index `0..6`. -/
theorem tokToIdxListF_lt :
    ∀ (fuel : ℕ) (tok : List Char) (x : ℕ), x ∈ tokToIdxListF fuel tok → x < 7 := by
  intro fuel
  induction fuel with
  | zero => intro tok x hx; cases tok <;> simp [tokToIdxListF] at hx
  | succ f ih =>
    intro tok x hx
    cases tok with
    | nil => simp [tokToIdxListF] at hx
    | cons c cs =>
      rw [tokToIdxListF] at hx
      split at hx
      · rename_i ab _
        split at hx
        · simp at hx
        · simp at hx
        · rename_i ai as bi bs ha hb
          have hai : ai < 7 := ih ab.1 ai (ha ▸ List.mem_cons_self _ _)
          exact wrapGo_lt 7 ai bi x hai hx
      · split at hx
        · rename_i i hen
          simp at hx
          subst hx
          exact Nat.lt_succ_of_le (enIdx_le _ _ hen)
        · split at hx
          · rename_i i hzh
            simp at hx
            subst hx
            exact Nat.lt_succ_of_le (zhIdx_le _ _ hzh)
          · split at hx
            · split_ifs at hx with h17 h06
              · simp at hx
                subst hx
                exact Nat.mod_lt _ (by norm_num)
              · simp at hx
                omega
              · simp at hx
            · simp at hx

/-- Every index produced by `tok_to_idx_list` is a weekday index `0..6`. -/
theorem tokToIdxList_lt (tok : List Char) (x : ℕ) (hx : x ∈ tokToIdxList tok) :
    x < 7 :=
  tokToIdxListF_lt tok.length tok x hx

/-- The round-half-even value of `n / d` is within `1/2` of the exact
rational, i.e. `roundHE` is a correct rounding. -/
theorem roundHE_half_dist (n d : ℕ) (hd : 0 < d) :
    |(roundHE n d : ℚ) - (n : ℚ) / (d : ℚ)| ≤ 1 / 2 := by
  have hdm := Nat.div_add_mod n d
  have hmod : n % d < d := Nat.mod_lt _ hd
  have hdq : (0 : ℚ) < (d : ℚ) := by exact_mod_cast hd
  have hnd : (n : ℚ) / d = (n / d : ℕ) + (n % d : ℕ) / d := by
    have h0 : (n / d) * d + n % d = n := by rw [Nat.mul_comm]; exact hdm
    have hsplit : (n : ℚ) = (n / d : ℕ) * d + (n % d : ℕ) := by
      exact_mod_cast h0.symm
    rw [hsplit, add_div, mul_div_cancel_right₀ _ (ne_of_gt hdq)]
  have hr0 : (0 : ℚ) ≤ (n % d : ℕ) / d := by positivity
  have hr1 : (n % d : ℕ) / (d : ℚ) < 1 := (div_lt_one hdq).mpr (by exact_mod_cast hmod)
  unfold roundHE
  split_ifs with h1 h2 h3
  · have hle : (n % d : ℕ) / (d : ℚ) ≤ 1 / 2 := by
      rw [div_le_div_iff hdq (by norm_num), one_mul]
      exact_mod_cast (by omega : (n % d) * 2 ≤ d)
    rw [hnd, abs_sub_le_iff]
    constructor <;> linarith
  · have hge : (1 : ℚ) / 2 ≤ (n % d : ℕ) / d := by
      rw [div_le_div_iff (by norm_num) hdq, one_mul]
      exact_mod_cast (by omega : d ≤ (n % d) * 2)
    rw [hnd, abs_sub_le_iff]
    push_cast
    constructor <;> linarith
  · have heq : (n % d : ℕ) / (d : ℚ) = 1 / 2 := by
      rw [div_eq_div_iff (ne_of_gt hdq) (by norm_num : (2 : ℚ) ≠ 0), one_mul]
      exact_mod_cast (by omega : (n % d) * 2 = d)
    rw [hnd, abs_sub_le_iff]
    constructor <;> linarith
  · have heq : (n % d : ℕ) / (d : ℚ) = 1 / 2 := by
      rw [div_eq_div_iff (ne_of_gt hdq) (by norm_num : (2 : ℚ) ≠ 0), one_mul]
      exact_mod_cast (by omega : (n % d) * 2 = d)
    rw [hnd, abs_sub_le_iff]
    push_cast
    constructor <;> linarith

/- ### Claim theorems -/

/-- C5: for every timestamp and time window, `in_time_window` keeps a frame
iff: with both bounds set and `start ≤ end`, `start ≤ t ≤ end` (inclusive);
with only start set, `start ≤ t`; with only end set, `t ≤ end`; with
`start > end` the window wraps midnight and the frame is kept iff
`t ≥ start` or `t ≤ end`; in particular `start = 22:00`, `end = 05:30`
keeps 23:00 and 02:00 and excludes 12:00. -/
theorem time_window_semantics :
    (∀ t s e : ℕ, s ≤ e →
      (inTimeWindow t (some s) (some e) = true ↔ s ≤ t ∧ t ≤ e)) ∧
    (∀ t s : ℕ, inTimeWindow t (some s) none = true ↔ s ≤ t) ∧
    (∀ t e : ℕ, inTimeWindow t none (some e) = true ↔ t ≤ e) ∧
    (∀ t s e : ℕ, e < s →
      (inTimeWindow t (some s) (some e) = true ↔ s ≤ t ∨ t ≤ e)) ∧
    inTimeWindow (timeOfDay 23 0 0) (some (timeOfDay 22 0 0))
      (some (timeOfDay 5 30 0)) = true ∧
    inTimeWindow (timeOfDay 2 0 0) (some (timeOfDay 22 0 0))
      (some (timeOfDay 5 30 0)) = true ∧
    inTimeWindow (timeOfDay 12 0 0) (some (timeOfDay 22 0 0))
      (some (timeOfDay 5 30 0)) = false := by
  refine ⟨?_, ?_, ?_, ?_, by decide, by decide, by decide⟩
  · intro t s e hse
    simp [inTimeWindow, if_pos hse]
  · intro t s
    simp [inTimeWindow]
  · intro t e
    simp [inTimeWindow]
  · intro t s e hes
    simp [inTimeWindow, if_neg (by omega : ¬ s ≤ e)]

/-- C5 witness: the closed-interval case applied at the concrete window
07:30–18:30 and timestamp 12:00. -/
theorem time_window_semantics_witness :
    timeOfDay 7 30 0 ≤ timeOfDay 18 30 0 ∧
    (inTimeWindow (timeOfDay 12 0 0) (some (timeOfDay 7 30 0))
        (some (timeOfDay 18 30 0)) = true ↔
      timeOfDay 7 30 0 ≤ timeOfDay 12 0 0 ∧ timeOfDay 12 0 0 ≤ timeOfDay 18 30 0) :=
  ⟨by decide, time_window_semantics.1 (timeOfDay 12 0 0) (timeOfDay 7 30 0)
    (timeOfDay 18 30 0) (by decide)⟩

/-- C4, counterexample: the claim reads the numeric grammar as also
supporting the `0–6 with 0=Monday` convention, under which `6` denotes
Sunday and the range `0-6` covers the whole week; but the code maps every
numeral `1..7` with the `1=Monday` convention first, so `"0-6"` parses to
Monday..Saturday and Sunday (index 6) is not in the result. -/
theorem weekday_zero_based_numerals_fail :
    parseWeekdays (some ("0-6")) = some {0, 1, 2, 3, 4, 5} ∧
    (6 : ℕ) ∉ ({0, 1, 2, 3, 4, 5} : Finset ℕ) :=
  ⟨by decide, by decide⟩

/-- C4, amended: `"mon-fri"` yields exactly {Mon..Fri}; range tokens wrap
the 7-day cycle (`"fri-mon"` = {Fri,Sat,Sun,Mon}); numeric tokens `1..7`
are accepted with 1=Monday (so `"1-5"` equals `"mon-fri"`), and the
numeral `0` is additionally accepted as Monday; numerals `1..6` are always
interpreted by the 1=Monday convention (so `"6"` is Saturday and `"0-6"`
yields Mon..Sat). -/
theorem weekday_range_parsing :
    parseWeekdays (some ("mon-fri")) = some {0, 1, 2, 3, 4} ∧
    parseWeekdays (some ("fri-mon")) = some {4, 5, 6, 0} ∧
    parseWeekdays (some ("1-5")) = parseWeekdays (some ("mon-fri")) ∧
    parseWeekdays (some ("1-5")) = some {0, 1, 2, 3, 4} ∧
    parseWeekdays (some ("0")) = some {0} ∧
    parseWeekdays (some ("1")) = some {0} ∧
    parseWeekdays (some ("7")) = some {6} ∧
    parseWeekdays (some ("6")) = some {5} ∧
    parseWeekdays (some ("0-6")) = some {0, 1, 2, 3, 4, 5} :=
  ⟨by decide, by decide, by decide, by decide, by decide, by decide,
   by decide, by decide, by decide⟩

/-- C9: a `None` spec, an empty spec, or a spec none of whose
comma-separated tokens parses to any day, yields the no-filtering value
`None` rather than an error, and under no filtering `in_weekdays` keeps
every frame. -/
theorem unparseable_weekdays_no_filter :
    parseWeekdays none = none ∧
    parseWeekdays (some ("")) = none ∧
    (∀ s : String,
      (∀ part ∈ splitOnComma (normalizeSpec s.data), tokToIdxList part = []) →
      parseWeekdays (some s) = none) ∧
    (∀ wd : ℕ, inWeekdays wd none = true) := by
  refine ⟨rfl, by decide, ?_, fun wd => rfl⟩
  intro s hs
  unfold parseWeekdays
  by_cases hd : s.data = []
  · simp [hd]
  · simp only [if_neg hd]
    rw [foldl_union_of_empty _ _ _ hs]
    simp

/-- C9 witness: the unparseable-token case applied at the concrete spec
`"xyz"`, plus `in_weekdays` on its parse. -/
theorem unparseable_weekdays_no_filter_witness :
    (∀ part ∈ splitOnComma (normalizeSpec ("xyz" : String).data),
      tokToIdxList part = []) ∧
    parseWeekdays (some ("xyz")) = none :=
  ⟨by decide, unparseable_weekdays_no_filter.2.2.1 ("xyz") (by decide)⟩

set_option linter.constructorNameAsVariable false in
/-- C10: for every input, `parse_weekdays` returns either the no-filtering
value `None` or a non-empty set of weekday indices within `0..6`; it never
returns an empty set. -/
theorem parse_weekdays_none_or_nonempty (s : Option String) :
    parseWeekdays s = none ∨
      ∃ w, parseWeekdays s = some w ∧ w.Nonempty ∧ ∀ x ∈ w, x ≤ 6 := by
  cases s with
  | none => exact Or.inl rfl
  | some str =>
    unfold parseWeekdays
    by_cases hd : str.data = []
    · exact Or.inl (by simp [hd])
    · simp only [if_neg hd]
      by_cases he : (splitOnComma (normalizeSpec str.data)).foldl
          (fun acc part => acc ∪ (tokToIdxList part).toFinset) ∅ = ∅
      · exact Or.inl (by simp [he])
      · refine Or.inr ⟨_, by simp [he], Finset.nonempty_iff_ne_empty.mpr he, ?_⟩
        intro x hx
        rw [mem_foldl_union] at hx
        rcases hx with h0 | ⟨part, _, hmem⟩
        · simp at h0
        · have := tokToIdxList_lt part x hmem
          omega

/-- C2, counterexample: for a 3×3 first frame and `target_width = 0` the
claim demands a 3×3 canvas (the source dimensions), but the code rounds
both dimensions up to even in this branch too, producing 4×4. -/
theorem canvas_keeps_source_dims_fails :
    pickWriterSize 3 3 0 = (4, 4) ∧ ((4, 4) : ℕ × ℕ) ≠ (3, 3) :=
  ⟨by decide, by decide⟩

/-- C2, amended: with `target_width ≤ 0` the canvas is the source
dimensions rounded up to even; with `target_width > 0` the width is
`target_width` and the height is round-half-even of
`source_height * target_width / source_width` (the rounding is within 1/2
of the exact rational); in every case both canvas dimensions are rounded
up to the nearest even number. -/
theorem pick_writer_size_spec (h w : ℕ) (tw : ℤ) :
    (tw ≤ 0 → pickWriterSize h w tw = (evenUp w, evenUp h)) ∧
    (0 < tw → pickWriterSize h w tw =
      (evenUp tw.toNat, evenUp (roundHE (h * tw.toNat) w))) ∧
    (pickWriterSize h w tw).1 % 2 = 0 ∧
    (pickWriterSize h w tw).2 % 2 = 0 ∧
    (∀ n : ℕ, n ≤ evenUp n ∧ evenUp n ≤ n + 1 ∧ evenUp n % 2 = 0) ∧
    (0 < w → 0 < tw →
      |(roundHE (h * tw.toNat) w : ℚ) - ((h * tw.toNat : ℕ) : ℚ) / (w : ℚ)| ≤ 1 / 2) := by
  have hev : ∀ n : ℕ, n ≤ evenUp n ∧ evenUp n ≤ n + 1 ∧ evenUp n % 2 = 0 := by
    intro n
    unfold evenUp
    split_ifs with hn <;> omega
  refine ⟨?_, ?_, ?_, ?_, hev, ?_⟩
  · intro htw
    simp [pickWriterSize, if_pos htw]
  · intro htw
    simp [pickWriterSize, if_neg (by omega : ¬ tw ≤ 0)]
  · unfold pickWriterSize
    split_ifs <;> exact (hev _).2.2
  · unfold pickWriterSize
    split_ifs <;> exact (hev _).2.2
  · intro hw _
    exact roundHE_half_dist _ _ hw

/-- C2 witness: the positive-width case and the rounding bound applied at
the default 1280-wide canvas for a 1920×1080 first frame. -/
theorem pick_writer_size_spec_witness :
    ((0 : ℤ) < 1280) ∧ ((0 : ℕ) < 1920) ∧
    pickWriterSize 1080 1920 1280 =
      (evenUp (1280 : ℤ).toNat, evenUp (roundHE (1080 * (1280 : ℤ).toNat) 1920)) ∧
    |(roundHE (1080 * (1280 : ℤ).toNat) 1920 : ℚ) -
        ((1080 * (1280 : ℤ).toNat : ℕ) : ℚ) / (1920 : ℚ)| ≤ 1 / 2 :=
  ⟨by decide, by decide,
   (pick_writer_size_spec 1080 1920 1280).2.1 (by decide),
   (pick_writer_size_spec 1080 1920 1280).2.2.2.2.2 (by decide) (by decide)⟩

end Timelapse

namespace Timelapse

/-- The boolean sort key comparison agrees with the lexicographic
relation on (mtime_ns, name). -/
theorem candLE_iff (a b : Cand) : candLE a b = true ↔ candLe a b := by
  simp [candLE, candLe]

/-- Transitivity of the sort key comparison. -/
theorem candLE_trans (a b c : Cand) (hab : candLE a b = true)
    (hbc : candLE b c = true) : candLE a c = true := by
  simp only [candLE, Bool.or_eq_true, Bool.and_eq_true, decide_eq_true_eq] at *
  rcases hab with h1 | ⟨h1, h2⟩ <;> rcases hbc with h3 | ⟨h3, h4⟩
  · exact Or.inl (lt_trans h1 h3)
  · exact Or.inl (by omega)
  · exact Or.inl (by omega)
  · exact Or.inr ⟨by omega, le_trans h2 h4⟩

/-- Totality of the sort key comparison. -/
theorem candLE_total (a b : Cand) : (candLE a b || candLE b a) = true := by
  simp only [candLE, Bool.or_eq_true, Bool.and_eq_true, decide_eq_true_eq]
  rcases Nat.lt_trichotomy a.mtimeNs b.mtimeNs with h | h | h
  · exact Or.inl (Or.inl h)
  · rcases le_total a.name b.name with hn | hn
    · exact Or.inl (Or.inr ⟨h, hn⟩)
    · exact Or.inr (Or.inr ⟨h.symm, hn⟩)
  · exact Or.inr (Or.inl h)

/-- C6: the selected sequence is sorted ascending by the key
`(mtime_ns, name)` — filename breaking mtime ties lexicographically — it
is a permutation of the candidates, and the subsequent time/weekday filter
returns a sublist (hence preserves the order and the sortedness). -/
theorem selection_sorted_and_order_preserved (files : List Cand)
    (ts te : Option ℕ) (wd : Option (Finset ℕ)) :
    List.Sorted candLe (sortFiles files) ∧
    (sortFiles files).Perm files ∧
    (filterByWindow ts te wd (sortFiles files)).Sublist (sortFiles files) ∧
    List.Sorted candLe (filterByWindow ts te wd (sortFiles files)) := by
  have hs : List.Sorted candLe (sortFiles files) := by
    have hp := @List.sorted_mergeSort Cand candLE candLE_trans candLE_total files
    exact hp.imp (fun h => (candLE_iff _ _).mp h)
  refine ⟨hs, List.mergeSort_perm files candLE, ?_, ?_⟩
  · unfold filterByWindow
    split_ifs
    · exact List.Sublist.refl _
    · exact List.filter_sublist _
  · unfold filterByWindow
    split_ifs
    · exact hs
    · exact hs.filter _

/-- C7, counterexample: an extensionless file whose first three bytes are
the JPEG magic and whose `.jpg` target does not exist, but where both the
rename and the copy fallback fail: the code returns the original path
unrenamed, while the claim asserts such a file is renamed. -/
theorem repair_rename_claim_fails :
    (maybeFixMissingExtension cexFs ⟨"a", ""⟩).path = ⟨"a", ""⟩ ∧
    (maybeFixMissingExtension cexFs ⟨"a", ""⟩).path.ext ≠ ".jpg" ∧
    isJpegFileByHeader cexFs ⟨"a", ""⟩ = true ∧
    pathExists cexFs (withSuffixJpg ⟨"a", ""⟩) = false :=
  ⟨by decide, by decide, by decide, by decide⟩

/-- C7, amended: for an extensionless file with JPEG header bytes and no
pre-existing `.jpg` target, the file is renamed to `.jpg` whenever the
rename syscall — or its copy-then-delete fallback — succeeds, and the
original path is returned with the filesystem untouched when both fail;
when the target already exists the original path is returned unchanged
(never overwriting); for any other header, or any read error, the file is
left untouched and the original path is returned. -/
theorem classify_and_repair_behavior (s : FsState) (p : MPath) :
    (p.ext = "" → isJpegFileByHeader s p = true →
      pathExists s (withSuffixJpg p) = false →
      ((s.renameOk = true →
        maybeFixMissingExtension s p =
          ⟨renameFile s p (withSuffixJpg p), withSuffixJpg p, 1⟩) ∧
       (s.renameOk = false → s.copyOk = true → s.unlinkOk = true →
        maybeFixMissingExtension s p =
          ⟨renameFile s p (withSuffixJpg p), withSuffixJpg p, 2⟩) ∧
       (s.renameOk = false → s.copyOk = false →
        maybeFixMissingExtension s p = ⟨s, p, 2⟩))) ∧
    (p.ext = "" → isJpegFileByHeader s p = true →
      pathExists s (withSuffixJpg p) = true →
      maybeFixMissingExtension s p = ⟨s, p, 0⟩) ∧
    (p.ext = "" → isJpegFileByHeader s p = false →
      maybeFixMissingExtension s p = ⟨s, p, 0⟩) := by
  refine ⟨fun hext hj hne => ⟨fun hr => ?_, fun hr hc hu => ?_, fun hr hc => ?_⟩,
    fun hext hj he => ?_, fun hext hj => ?_⟩
  · simp [maybeFixMissingExtension, hext, hj, hne, hr]
  · simp [maybeFixMissingExtension, hext, hj, hne, hr, hc, hu]
  · simp [maybeFixMissingExtension, hext, hj, hne, hr, hc]
  · simp [maybeFixMissingExtension, hext, hj, he]
  · simp [maybeFixMissingExtension, hext, hj]

/-- C7 witness: the renaming case applied on a filesystem where the rename
syscall succeeds. -/
theorem classify_and_repair_behavior_witness :
    (⟨"a", ""⟩ : MPath).ext = "" ∧
    isJpegFileByHeader okFs ⟨"a", ""⟩ = true ∧
    pathExists okFs (withSuffixJpg ⟨"a", ""⟩) = false ∧
    okFs.renameOk = true ∧
    maybeFixMissingExtension okFs ⟨"a", ""⟩ =
      ⟨renameFile okFs ⟨"a", ""⟩ (withSuffixJpg ⟨"a", ""⟩),
       withSuffixJpg ⟨"a", ""⟩, 1⟩ :=
  ⟨by decide, by decide, by decide, by decide,
   ((classify_and_repair_behavior okFs ⟨"a", ""⟩).1 (by decide) (by decide)
     (by decide)).1 (by decide)⟩

end Timelapse

namespace Timelapse

/-- The classifier predicate `is_jpeg_file_by_header` only depends on what a read of the path
returns. -/
theorem isJpeg_congr (s1 s2 : FsState) (p : MPath)
    (h : fsGet s1 p = fsGet s2 p) :
    isJpegFileByHeader s1 p = isJpegFileByHeader s2 p := by
  unfold isJpegFileByHeader
  rw [h]

/-- A JPEG classification implies the file exists and is readable. -/
theorem isJpeg_exists_bytes (s : FsState) (p : MPath)
    (h : isJpegFileByHeader s p = true) : ∃ b, fsGet s p = some (some b) := by
  unfold isJpegFileByHeader at h
  split at h
  · rename_i bytes heq
    exact ⟨bytes, heq⟩
  · simp at h
  · simp at h

/-- Reading an existing path is unaffected by a `copyFile` to some other
new path. -/
theorem fsGet_copyFile_of_isSome (s : FsState) (p np q : MPath)
    (hq : (fsGet s q).isSome) : fsGet (copyFile s p np) q = fsGet s q := by
  cases hf : s.files.find? (fun e => decide (e.1 = q)) with
  | none =>
    unfold fsGet at hq
    rw [hf] at hq
    simp at hq
  | some e =>
    unfold fsGet copyFile at *
    simp only [List.find?_append, hf]
    rfl

/-- After a `copyFile` whose source exists, the target path exists. -/
theorem pathExists_copyFile_target (s : FsState) (p np : MPath)
    (h : isJpegFileByHeader s p = true) :
    pathExists (copyFile s p np) np = true := by
  obtain ⟨b, hb⟩ := isJpeg_exists_bytes s p h
  unfold pathExists fsGet copyFile
  rw [hb]
  simp [List.find?_append]

/-- C8: the classify-and-repair operation is idempotent: applying it a
second time (on the filesystem and path produced by the first application)
returns the same path, and when the first application produced a suffixed
path the second application performs no rename/copy attempt. -/
theorem repair_idempotent (s : FsState) (p : MPath) :
    (maybeFixMissingExtension (maybeFixMissingExtension s p).st
        (maybeFixMissingExtension s p).path).path =
      (maybeFixMissingExtension s p).path ∧
    ((maybeFixMissingExtension s p).path.ext ≠ "" →
      (maybeFixMissingExtension (maybeFixMissingExtension s p).st
          (maybeFixMissingExtension s p).path).attempts = 0) := by
  have hjpg : ((".jpg" : String) ≠ "") := by decide
  by_cases hext : p.ext = ""
  · cases hj : isJpegFileByHeader s p with
    | false =>
      have h1 : maybeFixMissingExtension s p = ⟨s, p, 0⟩ := by
        simp [maybeFixMissingExtension, hext, hj]
      simp [h1, hext]
    | true =>
      cases hex : pathExists s (withSuffixJpg p) with
      | true =>
        have h1 : maybeFixMissingExtension s p = ⟨s, p, 0⟩ := by
          simp [maybeFixMissingExtension, hext, hj, hex]
        simp [h1, hext]
      | false =>
        cases hr : s.renameOk with
        | true =>
          have h1 : maybeFixMissingExtension s p =
              ⟨renameFile s p (withSuffixJpg p), withSuffixJpg p, 1⟩ := by
            simp [maybeFixMissingExtension, hext, hj, hex, hr]
          have h2 : maybeFixMissingExtension
              (renameFile s p (withSuffixJpg p)) (withSuffixJpg p) =
              ⟨renameFile s p (withSuffixJpg p), withSuffixJpg p, 0⟩ := by
            simp [maybeFixMissingExtension, withSuffixJpg, hjpg]
          simp [h1, h2]
        | false =>
          cases hc : s.copyOk with
          | false =>
            have h1 : maybeFixMissingExtension s p = ⟨s, p, 2⟩ := by
              simp [maybeFixMissingExtension, hext, hj, hex, hr, hc]
            simp [h1, hext]
          | true =>
            cases hu : s.unlinkOk with
            | true =>
              have h1 : maybeFixMissingExtension s p =
                  ⟨renameFile s p (withSuffixJpg p), withSuffixJpg p, 2⟩ := by
                simp [maybeFixMissingExtension, hext, hj, hex, hr, hc, hu]
              have h2 : maybeFixMissingExtension
                  (renameFile s p (withSuffixJpg p)) (withSuffixJpg p) =
                  ⟨renameFile s p (withSuffixJpg p), withSuffixJpg p, 0⟩ := by
                simp [maybeFixMissingExtension, withSuffixJpg, hjpg]
              simp [h1, h2]
            | false =>
              have h1 : maybeFixMissingExtension s p =
                  ⟨copyFile s p (withSuffixJpg p), p, 2⟩ := by
                simp [maybeFixMissingExtension, hext, hj, hex, hr, hc, hu]
              have hj2 : isJpegFileByHeader
                  (copyFile s p (withSuffixJpg p)) p = true := by
                obtain ⟨b, hb⟩ := isJpeg_exists_bytes s p hj
                rw [isJpeg_congr (copyFile s p (withSuffixJpg p)) s p
                  (fsGet_copyFile_of_isSome s p (withSuffixJpg p) p
                    (by rw [hb]; rfl))]
                exact hj
              have hex2 : pathExists (copyFile s p (withSuffixJpg p))
                  (withSuffixJpg p) = true :=
                pathExists_copyFile_target s p (withSuffixJpg p) hj
              have h2 : maybeFixMissingExtension
                  (copyFile s p (withSuffixJpg p)) p =
                  ⟨copyFile s p (withSuffixJpg p), p, 0⟩ := by
                simp [maybeFixMissingExtension, hext, hj2, hex2]
              simp [h1, h2, hext]
  · have h1 : maybeFixMissingExtension s p = ⟨s, p, 0⟩ := by
      simp [maybeFixMissingExtension, hext]
    simp [h1, hext]

/-- C8 witness: idempotence applied on a filesystem where the first
application renames the file, so the produced path is suffixed and the
second application makes no rename attempt. -/
theorem repair_idempotent_witness :
    (maybeFixMissingExtension okFs ⟨"a", ""⟩).path.ext ≠ "" ∧
    (maybeFixMissingExtension (maybeFixMissingExtension okFs ⟨"a", ""⟩).st
        (maybeFixMissingExtension okFs ⟨"a", ""⟩).path).attempts = 0 :=
  ⟨by decide, (repair_idempotent okFs ⟨"a", ""⟩).2 (by decide)⟩

end Timelapse

namespace Timelapse

/-- Rounding an exact multiple is exact. -/
theorem roundHE_exact (m d : ℕ) (hd : 0 < d) : roundHE (m * d) d = m := by
  unfold roundHE
  rw [Nat.mul_mod_left, Nat.mul_div_cancel _ hd]
  simpa using fun h => absurd hd (by omega)

/-- Upper bound for rounding: `roundHE n d ≤ m` whenever the exact fraction is at most `m`. -/
theorem roundHE_le_of_le (n d m : ℕ) (hd : 0 < d) (h : n ≤ m * d) :
    roundHE n d ≤ m := by
  have hq : n / d ≤ m := by
    have h2 : n / d ≤ m * d / d := Nat.div_le_div_right h
    rwa [Nat.mul_div_cancel _ hd] at h2
  by_cases hqm : n / d = m
  · have hge : m * d ≤ n := by
      calc m * d = (n / d) * d := by rw [hqm]
      _ ≤ n := Nat.div_mul_le_self n d
    have hnd : n = m * d := le_antisymm h hge
    rw [hnd, roundHE_exact m d hd]
  · have hlt : n / d < m := lt_of_le_of_ne hq hqm
    unfold roundHE
    split_ifs <;> omega

/-- The resize target dimensions of `ensure_size` never exceed the canvas:
`new_w ≤ target_w` and `new_h ≤ target_h` (for positive sizes). -/
theorem newDims_le (w h tw th : ℕ) (hw : 0 < w) (hh : 0 < h)
    (htw : 0 < tw) (hth : 0 < th) :
    max 1 (roundHE (w * (scaleFrac w h tw th).1) (scaleFrac w h tw th).2) ≤ tw ∧
    max 1 (roundHE (h * (scaleFrac w h tw th).1) (scaleFrac w h tw th).2) ≤ th := by
  unfold scaleFrac
  split_ifs with hc
  · constructor
    · have hx : roundHE (w * tw) w = tw := by
        rw [Nat.mul_comm]
        exact roundHE_exact tw w hw
      simp only [hx]
      omega
    · have hle : h * tw ≤ th * w := by
        calc h * tw = tw * h := Nat.mul_comm _ _
        _ ≤ th * w := hc
      have hx := roundHE_le_of_le (h * tw) w th hw hle
      simp only
      omega
  · have hcc : th * w ≤ tw * h := le_of_not_le hc
    constructor
    · have hle : w * th ≤ tw * h := by
        calc w * th = th * w := Nat.mul_comm _ _
        _ ≤ tw * h := hcc
      have hx := roundHE_le_of_le (w * th) h tw hh hle
      simp only
      omega
    · have hx : roundHE (h * th) h = th := by
        rw [Nat.mul_comm]
        exact roundHE_exact th h hh
      simp only [hx]
      omega

/-- For positive source and canvas dimensions, `ensure_size` never hits the
negative-border failure: it returns a frame. -/
theorem ensureSize_isSome (resize : Img → ℕ → ℕ → Img) (img : Img)
    (tw th : ℕ) (hw : 0 < img.w) (hh : 0 < img.h) (htw : 0 < tw)
    (hth : 0 < th) : (ensureSize resize img tw th).isSome = true := by
  obtain ⟨hWle, hHle⟩ := newDims_le img.w img.h tw th hw hh htw hth
  unfold ensureSize
  split_ifs with heq
  · rfl
  · set NW := max 1 (roundHE (img.w * (scaleFrac img.w img.h tw th).1)
      (scaleFrac img.w img.h tw th).2) with hNW
    set NH := max 1 (roundHE (img.h * (scaleFrac img.w img.h tw th).1)
      (scaleFrac img.w img.h tw th).2) with hNH
    unfold copyMakeBorder
    rw [if_pos (by omega)]
    rfl

/-- Whenever `ensure_size` returns a frame, that frame has exactly the
canvas dimensions (only the dimension contract of the resize capability is
used). -/
theorem ensureSize_dims (resize : Img → ℕ → ℕ → Img)
    (hres : ∀ i nw nh, (resize i nw nh).w = nw ∧ (resize i nw nh).h = nh)
    (img : Img) (tw th : ℕ) (out : Img)
    (hout : ensureSize resize img tw th = some out) :
    out.w = tw ∧ out.h = th := by
  unfold ensureSize at hout
  split_ifs at hout with heq
  · cases hout
    exact ⟨heq.1, heq.2⟩
  · unfold copyMakeBorder at hout
    dsimp only at hout
    set NW := max 1 (roundHE (img.w * (scaleFrac img.w img.h tw th).1)
      (scaleFrac img.w img.h tw th).2) with hNW
    set NH := max 1 (roundHE (img.h * (scaleFrac img.w img.h tw th).1)
      (scaleFrac img.w img.h tw th).2) with hNH
    obtain ⟨hrw, hrh⟩ := hres img NW NH
    split_ifs at hout with hpos
    cases hout
    exact ⟨by dsimp only; omega, by dsimp only; omega⟩

end Timelapse

namespace Timelapse

/-- Closed form of the frame loop when normalization never fails: the
appended frames are exactly the successfully decoded ones (normalized and
overlaid) in input order, and the logged failures are exactly the files
whose decode failed, in input order. -/
theorem runFrames_eq {α : Type} (decode : α → Option Img)
    (resize : Img → ℕ → ℕ → Img) (overlay : Img → Img) (W H : ℕ) :
    ∀ images : List α,
      (∀ p ∈ images, ∀ i, decode p = some i →
        (ensureSize resize i W H).isSome = true) →
      runFrames decode resize overlay W H images =
        some (images.filterMap (fun p => (decode p).bind
                (fun i => (ensureSize resize i W H).map overlay)),
              images.filter (fun p => (decode p).isNone)) := by
  intro images
  induction images with
  | nil => intro _; rfl
  | cons p rest ih =>
    intro hok
    have hrest := ih (fun q hq i hi => hok q (List.mem_cons_of_mem _ hq) i hi)
    rw [runFrames, hrest]
    cases hd : decode p with
    | none => simp [hd]
    | some i =>
      have hsome := hok p (List.mem_cons_self _ _) i hd
      cases hes : ensureSize resize i W H with
      | none => rw [hes] at hsome; simp at hsome
      | some frame => simp [hd, hes]

/-- Every frame the frame loop produces has the canvas dimensions. -/
theorem runFrames_dims {α : Type} (decode : α → Option Img)
    (resize : Img → ℕ → ℕ → Img) (overlay : Img → Img) (W H : ℕ)
    (hres : ∀ i nw nh, (resize i nw nh).w = nw ∧ (resize i nw nh).h = nh)
    (hov : ∀ i, (overlay i).w = i.w ∧ (overlay i).h = i.h) :
    ∀ (images : List α) (fs : List Img) (ws : List α),
      runFrames decode resize overlay W H images = some (fs, ws) →
      ∀ f ∈ fs, f.w = W ∧ f.h = H := by
  intro images
  induction images with
  | nil =>
    intro fs ws h f hf
    rw [runFrames] at h
    cases h
    simp at hf
  | cons p rest ih =>
    intro fs ws h f hf
    rw [runFrames] at h
    split at h
    · split at h
      · exact absurd h (by simp)
      · rename_i hr
        cases h
        exact ih _ _ hr f hf
    · rename_i i hd
      split at h
      · exact absurd h (by simp)
      · rename_i frame hes
        split at h
        · exact absurd h (by simp)
        · rename_i hr
          cases h
          rcases List.mem_cons.mp hf with rfl | hf0
          · obtain ⟨hfw, hfh⟩ := ensureSize_dims resize hres i W H frame hes
            obtain ⟨how, hoh⟩ := hov frame
            exact ⟨by rw [how, hfw], by rw [hoh, hfh]⟩
          · exact ih _ _ hr f hf0

/-- Inversion of a finished job: it had a nonempty selection, its first
image decoded, and the frame loop ran at the canvas size picked from that
first decoded image. -/
theorem runJob_done_inv {α : Type} (decode : α → Option Img)
    (resize : Img → ℕ → ℕ → Img) (overlay : Img → Img) (width : ℤ)
    (oe ow wo : Bool) (images : List α) (fs : List Img) (ws : List α)
    (h : runJob decode resize overlay width oe ow wo images = .done fs ws) :
    ∃ p0 rest i0, images = p0 :: rest ∧ decode p0 = some i0 ∧
      runFrames decode resize overlay (pickWriterSize i0.h i0.w width).1
        (pickWriterSize i0.h i0.w width).2 (p0 :: rest) = some (fs, ws) := by
  cases images with
  | nil => rw [runJob] at h; simp at h
  | cons p0 rest =>
    rw [runJob] at h
    split_ifs at h with hskip hwo
    · rcases hd : decode p0 with _ | i0 <;> simp [hd] at h
    · dsimp only at h
      split at h
      · exact absurd h (by simp)
      · rename_i i0 hd
        split at h
        · exact absurd h (by simp)
        · rename_i hr
          cases h
          exact ⟨p0, rest, i0, rfl, hd, hr⟩

end Timelapse

namespace Timelapse

/-- C3: normalization scales by `min(canvas_w / src_w, canvas_h / src_h)`
(stated as exact rationals) preserving aspect ratio, centers the resized
image on a black canvas of exactly the canvas size via symmetric padding
whose extra pixel goes to the bottom/right side when the padding amount is
odd, and every frame a finished job appended to the sink has identical
dimensions equal to the canvas picked from the first decoded frame. -/
theorem normalize_letterbox_uniform
    (resize : Img → ℕ → ℕ → Img)
    (hres : ∀ i nw nh, (resize i nw nh).w = nw ∧ (resize i nw nh).h = nh)
    (img : Img) (tw th : ℕ)
    (hw : 0 < img.w) (hh : 0 < img.h) (htw : 0 < tw) (hth : 0 < th) :
    (((scaleFrac img.w img.h tw th).1 : ℚ) / ((scaleFrac img.w img.h tw th).2 : ℚ)
      = min ((tw : ℚ) / (img.w : ℚ)) ((th : ℚ) / (img.h : ℚ))) ∧
    (∃ out, ensureSize resize img tw th = some out ∧ out.w = tw ∧ out.h = th) ∧
    (¬(img.w = tw ∧ img.h = th) →
      ∀ out, ensureSize resize img tw th = some out →
      ∃ newW newH padTop padBot padLeft padRight,
        newW = max 1 (roundHE (img.w * (scaleFrac img.w img.h tw th).1)
          (scaleFrac img.w img.h tw th).2) ∧
        newH = max 1 (roundHE (img.h * (scaleFrac img.w img.h tw th).1)
          (scaleFrac img.w img.h tw th).2) ∧
        newW ≤ tw ∧ newH ≤ th ∧
        padTop = (th - newH) / 2 ∧ padLeft = (tw - newW) / 2 ∧
        padTop + padBot = th - newH ∧ padLeft + padRight = tw - newW ∧
        padBot = padTop + (th - newH) % 2 ∧
        padRight = padLeft + (tw - newW) % 2 ∧
        (∀ y x, out.px y x =
          if padTop ≤ y ∧ y < padTop + newH ∧ padLeft ≤ x ∧ x < padLeft + newW
          then (resize img newW newH).px (y - padTop) (x - padLeft)
          else (0, 0, 0))) ∧
    (∀ (α : Type) (decode : α → Option Img) (overlay : Img → Img)
      (width : ℤ) (oe ow wo : Bool) (images : List α) (frames : List Img)
      (failed : List α),
      (∀ i, (overlay i).w = i.w ∧ (overlay i).h = i.h) →
      runJob decode resize overlay width oe ow wo images = .done frames failed →
      ∃ p0 rest i0, images = p0 :: rest ∧ decode p0 = some i0 ∧
        ∀ f ∈ frames, f.w = (pickWriterSize i0.h i0.w width).1 ∧
          f.h = (pickWriterSize i0.h i0.w width).2) := by
  have hwq : (0 : ℚ) < (img.w : ℚ) := by exact_mod_cast hw
  have hhq : (0 : ℚ) < (img.h : ℚ) := by exact_mod_cast hh
  refine ⟨?_, ?_, ?_, ?_⟩
  · unfold scaleFrac
    split_ifs with hc
    · dsimp only
      rw [min_eq_left ((div_le_div_iff hwq hhq).mpr (by exact_mod_cast hc))]
    · dsimp only
      rw [min_eq_right
        ((div_le_div_iff hhq hwq).mpr (by exact_mod_cast le_of_not_le hc))]
  · have hsome := ensureSize_isSome resize img tw th hw hh htw hth
    obtain ⟨out0, hout0⟩ := Option.isSome_iff_exists.mp hsome
    exact ⟨out0, hout0, ensureSize_dims resize hres img tw th out0 hout0⟩
  · intro hne out hout
    obtain ⟨hWle, hHle⟩ := newDims_le img.w img.h tw th hw hh htw hth
    unfold ensureSize at hout
    rw [if_neg hne] at hout
    unfold copyMakeBorder at hout
    dsimp only at hout
    set NW := max 1 (roundHE (img.w * (scaleFrac img.w img.h tw th).1)
      (scaleFrac img.w img.h tw th).2) with hNW
    set NH := max 1 (roundHE (img.h * (scaleFrac img.w img.h tw th).1)
      (scaleFrac img.w img.h tw th).2) with hNH
    obtain ⟨hrw, hrh⟩ := hres img NW NH
    split_ifs at hout with hpos
    cases hout
    refine ⟨NW, NH, (((th : ℤ) - NH) / 2).toNat,
      ((th : ℤ) - NH - ((th : ℤ) - NH) / 2).toNat,
      (((tw : ℤ) - NW) / 2).toNat,
      ((tw : ℤ) - NW - ((tw : ℤ) - NW) / 2).toNat,
      rfl, rfl, hWle, hHle, by omega, by omega, by omega, by omega,
      by omega, by omega, ?_⟩
    intro y x
    dsimp only
    rw [hrw, hrh]
  · intro A decode overlay width oe ow wo images frames failed hov hjob
    obtain ⟨p0, rest, i0, hims, hd, hr⟩ :=
      runJob_done_inv decode resize overlay width oe ow wo images
        frames failed hjob
    exact ⟨p0, rest, i0, hims, hd,
      runFrames_dims decode resize overlay _ _ hres hov (p0 :: rest)
        frames failed hr⟩

/-- C3 witness: the dimension invariant of normalization applied to a
concrete 3×3 image on a 4×4 canvas with a concrete resize capability. -/
theorem normalize_letterbox_uniform_witness :
    (∀ i nw nh, (rz0 i nw nh).w = nw ∧ (rz0 i nw nh).h = nh) ∧
    (0 : ℕ) < im33.w ∧ (0 : ℕ) < im33.h ∧ ((0 : ℕ) < 4) ∧
    (∃ out, ensureSize rz0 im33 4 4 = some out ∧ out.w = 4 ∧ out.h = 4) :=
  ⟨fun i nw nh => ⟨rfl, rfl⟩, by decide, by decide, by decide,
   (normalize_letterbox_uniform rz0 (fun i nw nh => ⟨rfl, rfl⟩) im33 4 4
     (by decide) (by decide) (by decide) (by decide)).2.1⟩

/-- C1: evaluation of the job pipeline at a selection whose FIRST file
fails to decode: the code reaches the unguarded first decode
(`load_image_bgr_with_orientation(images[0])`, line 251, outside any
`try`) and the job is aborted rather than dropping that frame — while the
same failing file in any later position is logged and skipped with the job
finishing. This contradicts the claim (and §7 of the spec, which makes
decode failures per-frame recoverable). -/
theorem first_frame_decode_failure_aborts_job :
    runJob dec0 rz0 id 0 false true true [0, 1] =
      JobOutcome.abortedFirstDecode ∧
    (runJob dec0 rz0 id 0 false true true [0, 1]).isDone = false ∧
    (dec0 0).isNone = true ∧
    (dec0 1).isSome = true ∧
    (runJob dec0 rz0 id 0 false true true [1, 0]).isDone = true ∧
    (runJob dec0 rz0 id 0 false true true [1, 0]).frameCount = 1 ∧
    (runJob dec0 rz0 id 0 false true true [1, 0]).failedList = [0] :=
  ⟨rfl, by decide, by decide, by decide, by decide, by decide, by decide⟩

end Timelapse
